import Mathlib

/-!
Verification development for the final BIOS boot stage of the bootloader
repository: the memory-map normalizer, the forward-only frame allocator,
the final memory-map constructor and the identity-mapping page-table loop.

Sources embedded here:
* `src/bios/stage-4/src/main.rs` (`_start`: sorting the E820 map, the
  `max_phys_addr` computation, the kernel-location assertion, the frame
  allocator construction and the 2 MiB identity-map loop);
* `src/tests/memory_regions.rs` (the `TestMemoryRegion` type and the
  expectations of `test_kernel_and_ram_in_same_region`).

The `LegacyFrameAllocator` type with its `allocate_frame` and
`construct_memory_map` operations lives in the `bootloader_x86_64_common`
crate, whose source is not part of this repository snapshot; those
operations are modelled from the specification (sections 4.2 and 4.3),
as marked in the individual doc comments.

All physical addresses and byte counts are modelled as `Nat`; the values
appearing in the code are far below `2^64`, and no arithmetic here wraps.
Frames are identified by their frame number (address divided by the page
size).
-/

namespace Bootloader

/-- Output region kinds of the final memory map, after
`bootloader_api::info::MemoryRegionKind` (`Usable`, `Bootloader`,
`UnknownBios(u32)`; the UEFI variant is irrelevant to the BIOS path). -/
inductive MemoryRegionKind where
  | Usable
  | Bootloader
  | UnknownBios (code : Nat)
deriving DecidableEq, Repr

/-- Final memory-map entry, after `bootloader_api::info::MemoryRegion`:
`{start: u64, end: u64, kind}` with `end` exclusive.  The Rust field
`end` is spelled `endAddr` because `end` is a Lean keyword. -/
structure MemoryRegion where
  start : Nat
  endAddr : Nat
  kind : MemoryRegionKind
deriving DecidableEq, Repr

/-- Firmware-view region, after `TestMemoryRegion` in
`src/tests/memory_regions.rs`: `{start: PhysAddr, len: u64, kind}`. -/
structure TestMemoryRegion where
  start : Nat
  len : Nat
  kind : MemoryRegionKind
deriving DecidableEq, Repr

/-- 4 KiB frame size (`Size4KiB`). -/
def PAGE_SIZE : Nat := 4096

/-- Interval-list membership: `x` lies in some half-open interval of `l`.
Intervals are `(start, end)` pairs with exclusive end. -/
def Covers (l : List (Nat × Nat)) (x : Nat) : Prop :=
  ∃ p ∈ l, p.1 ≤ x ∧ x < p.2

instance (l : List (Nat × Nat)) (x : Nat) : Decidable (Covers l x) := by
  unfold Covers
  infer_instance

/-- Region-list membership: `x` lies in some emitted region of `l`. -/
def OutCovers (l : List MemoryRegion) (x : Nat) : Prop :=
  ∃ r ∈ l, r.start ≤ x ∧ x < r.endAddr

instance (l : List MemoryRegion) (x : Nat) : Decidable (OutCovers l x) := by
  unfold OutCovers
  infer_instance

/-- Insert a point into a strictly sorted list, keeping it strictly
sorted (duplicates are dropped). -/
def insertPt (x : Nat) : List Nat → List Nat
  | [] => [x]
  | y :: ys =>
    if x < y then x :: y :: ys
    else if x = y then y :: ys
    else y :: insertPt x ys

/-- Strictly sorted (ascending, duplicate-free) list of the given points. -/
def sortedPoints (l : List Nat) : List Nat :=
  l.foldr insertPt []

/-- Consecutive pairs of a list: `consecPairs [a, b, c] = [(a,b), (b,c)]`. -/
def consecPairs : List Nat → List (Nat × Nat)
  | a :: b :: rest => (a, b) :: consecPairs (b :: rest)
  | _ => []

/-- Both endpoints of every interval in the list. -/
def endpointsOf (l : List (Nat × Nat)) : List Nat :=
  l.foldr (fun p acc => p.1 :: p.2 :: acc) []

/-- Modelled from the spec: the in-use carve-outs consumed by
`construct_memory_map` (spec section 4.3) — the bootloader-internal
carve-out from address 0 up to the allocator cursor, the kernel-image
carve-out, and the optional ramdisk carve-out, each a half-open byte
range. -/
def carveList (bootEnd kernel_slice_start kernel_slice_len : Nat)
    (ramdisk_slice_start : Option Nat) (ramdisk_slice_len : Nat) : List (Nat × Nat) :=
  (0, bootEnd) :: (kernel_slice_start, kernel_slice_start + kernel_slice_len) ::
    (match ramdisk_slice_start with
      | some s => [(s, s + ramdisk_slice_len)]
      | none => [])

/-- The `Usable` firmware regions as half-open byte ranges. -/
def usables (regions : List TestMemoryRegion) : List (Nat × Nat) :=
  regions.filterMap fun r =>
    if r.kind = MemoryRegionKind.Usable then some (r.start, r.start + r.len) else none

/-- Modelled from the spec: the kind of the final-map region containing a
given address (spec section 4.3) — carve-outs are emitted as `Bootloader`
(steps 1 and 3), the remaining parts of `Usable` firmware regions as
`Usable` (step 2), and addresses outside both are not emitted. -/
def classify (carves usabs : List (Nat × Nat)) (x : Nat) : Option MemoryRegionKind :=
  if Covers carves x then some MemoryRegionKind.Bootloader
  else if Covers usabs x then some MemoryRegionKind.Usable
  else none

/-- All carve-out and usable-region boundaries, in ascending order
(spec section 4.3: "walk all carve-outs and usable-region boundaries in
ascending address order"). -/
def boundaryPoints (carves usabs : List (Nat × Nat)) : List Nat :=
  sortedPoints (endpointsOf carves ++ endpointsOf usabs)

/-- Emit one region per consecutive boundary pair whose left endpoint is
classified, tagged with the classification. -/
def segmentsOf (f : Nat → Option MemoryRegionKind) (pts : List Nat) : List MemoryRegion :=
  (consecPairs pts).filterMap fun p =>
    (f p.1).map fun k => { start := p.1, endAddr := p.2, kind := k }

/-- Modelled from the spec: adjacent emitted regions of the same kind are
merged into a single region (spec section 4.3, step 4). -/
def mergeAdjacent : List MemoryRegion → List MemoryRegion
  | [] => []
  | r :: rest =>
    match mergeAdjacent rest with
    | [] => [r]
    | s :: tail =>
      if r.endAddr = s.start ∧ r.kind = s.kind then
        { start := r.start, endAddr := s.endAddr, kind := r.kind } :: tail
      else r :: s :: tail

/-- Modelled from the spec: `LegacyFrameAllocator`
(`bootloader_x86_64_common::legacy_memory_region`, not in this snapshot;
spec sections 3 and 4.2): the sorted firmware regions together with the
single monotonically increasing frame cursor `next_frame` (a frame
number). -/
structure LegacyFrameAllocator where
  regions : List TestMemoryRegion
  next_frame : Nat
deriving DecidableEq, Repr

/-- Modelled from the spec: `LegacyFrameAllocator::new_starting_at`.
Address 0 is always claimed by the bootloader (spec section 3: the first
final region starts at address 0 and is tagged `Bootloader`; section 4.3
step 1), so the cursor never sits below frame 1; `new` skips frame 0
accordingly, and the in-repo call site passes `kernel_end + 1 ≥ 1`. -/
def LegacyFrameAllocator.new_starting_at (frame : Nat) (regions : List TestMemoryRegion) :
    LegacyFrameAllocator :=
  { regions := regions, next_frame := max frame 1 }

/-- Modelled from the spec: `LegacyFrameAllocator::new` starts the cursor
at the frame containing address `0x1000`, i.e. frame 1 (the test's first
assertion: the region `[0, 0x1000)` is `Bootloader`). -/
def LegacyFrameAllocator.new (regions : List TestMemoryRegion) : LegacyFrameAllocator :=
  LegacyFrameAllocator.new_starting_at 1 regions

/-- Modelled from the spec: `construct_memory_map` (spec section 4.3).
Walks all carve-out and usable-region boundaries in ascending order,
emitting the bootloader carve-out `[0, cursor)` as `Bootloader`
unconditionally, the kernel and optional ramdisk carve-outs as
`Bootloader`, every usable gap between carve-outs as `Usable`, and
merging adjacent regions of equal kind.  The fixed-capacity output
buffer of the Rust signature is not modelled (no claim concerns
capacity overflow). -/
def construct_memory_map (a : LegacyFrameAllocator)
    (kernel_slice_start kernel_slice_len : Nat)
    (ramdisk_slice_start : Option Nat) (ramdisk_slice_len : Nat) : List MemoryRegion :=
  mergeAdjacent (segmentsOf
    (classify
      (carveList (a.next_frame * PAGE_SIZE) kernel_slice_start kernel_slice_len
        ramdisk_slice_start ramdisk_slice_len)
      (usables a.regions))
    (boundaryPoints
      (carveList (a.next_frame * PAGE_SIZE) kernel_slice_start kernel_slice_len
        ramdisk_slice_start ramdisk_slice_len)
      (usables a.regions)))

/-- Modelled from the spec: the first frame at or above cursor `n` that
falls entirely inside region `r`, when `r` is `Usable` and such a frame
exists (spec section 4.2: the cursor advances "to the next frame-aligned
address at or above its current value that falls inside a Usable region,
skipping any non-Usable regions entirely"). -/
def usableFrameFrom (n : Nat) (r : TestMemoryRegion) : Option Nat :=
  if r.kind = MemoryRegionKind.Usable then
    if (max n ((r.start + PAGE_SIZE - 1) / PAGE_SIZE) + 1) * PAGE_SIZE ≤ r.start + r.len then
      some (max n ((r.start + PAGE_SIZE - 1) / PAGE_SIZE))
    else none
  else none

/-- Minimum of a list of naturals, `none` on the empty list. -/
def listMin : List Nat → Option Nat
  | [] => none
  | x :: xs =>
    match listMin xs with
    | none => some x
    | some m => some (min x m)

/-- Maximum of a list of naturals, `none` on the empty list (models
`Iterator::max`). -/
def listMax : List Nat → Option Nat
  | [] => none
  | x :: xs =>
    match listMax xs with
    | none => some x
    | some m => some (max x m)

/-- Modelled from the spec: `allocate_frame` (spec section 4.2).  Returns
the lowest usable frame at or above the cursor and advances the cursor
past it; `none` means physical memory is exhausted (fatal during boot). -/
def LegacyFrameAllocator.allocate_frame (a : LegacyFrameAllocator) :
    Option (Nat × LegacyFrameAllocator) :=
  match listMin (a.regions.filterMap (usableFrameFrom a.next_frame)) with
  | some f => some (f, { regions := a.regions, next_frame := f + 1 })
  | none => none

/-- The frames returned by a sequence of at most `k` `allocate_frame`
calls (the sequence stops early at exhaustion). -/
def allocSeq : LegacyFrameAllocator → Nat → List Nat
  | _, 0 => []
  | a, k + 1 =>
    match a.allocate_frame with
    | some fa => fa.1 :: allocSeq fa.2 k
    | none => []

/-- Firmware memory-map entry, after
`bootloader_x86_64_bios_common::E820MemoryRegion`:
`{start_addr: u64, len: u64, region_type: u32, ...}`. -/
structure E820MemoryRegion where
  start_addr : Nat
  len : Nat
  region_type : Nat
deriving DecidableEq, Repr

/-- Modelled from the spec: the `MemoryRegion` wrapper of the stage-4
`memory_descriptor` module (declared in `main.rs` but not in this
snapshot), which exposes an E820 entry through the allocator's region
interface; E820 type 1 is the usable RAM type, everything else is a
firmware-specific non-usable kind (spec section 3: "anything not Usable
is never allocatable"). -/
def E820MemoryRegion.toRegion (e : E820MemoryRegion) : TestMemoryRegion :=
  { start := e.start_addr
    len := e.len
    kind := if e.region_type = 1 then MemoryRegionKind.Usable
            else MemoryRegionKind.UnknownBios e.region_type }

/-- Insert an entry into a list sorted by `start_addr`
(`main.rs` line 43 sorts with `sort_unstable_by_key(|e| e.start_addr)`;
the source guarantees only the ascending order, which is all that later
steps rely on — this executable refinement is one insertion sort). -/
def insertByStart (e : E820MemoryRegion) :
    List E820MemoryRegion → List E820MemoryRegion
  | [] => [e]
  | x :: xs =>
    if e.start_addr < x.start_addr then e :: x :: xs
    else x :: insertByStart e xs

/-- Sort the firmware map by `start_addr` ascending (`main.rs` line 43). -/
def sortByStart (l : List E820MemoryRegion) : List E820MemoryRegion :=
  l.foldr insertByStart []

/-- Highest physical address reported by firmware: the maximum of
`start_addr + len` over all map entries (`main.rs` lines 45-52); `none`
when the map is empty, which `_start` turns into the fatal
`"no physical memory regions found"` panic. -/
def maxPhysAddr (memoryMap : List E820MemoryRegion) : Option Nat :=
  listMax (memoryMap.map fun r => r.start_addr + r.len)

/-- Fatal firmware-data errors of the stage-4 entry point; each one ends
in the panic handler, which halts the processor in a `cli; hlt` loop
(`main.rs` lines 232-242) — there is no recovery path. -/
inductive BootError where
  | noMemoryRegions
  | kernelStartZero
deriving DecidableEq, Repr

/-- The firmware-data prefix of `_start` (`main.rs` lines 36-66): sort
the E820 map, compute the highest reported physical address (fatal if
the map is empty), check the kernel start address (fatal if zero), and
construct the frame allocator starting at the frame after the kernel
image.  Returns the allocator and the highest physical address; every
`allocate_frame` call of the boot flow happens strictly after this
prefix, so the error returns precede any allocation. -/
def bootStage4 (memoryMap : List E820MemoryRegion) (kernelStart kernelLen : Nat) :
    Except BootError (LegacyFrameAllocator × Nat) :=
  match maxPhysAddr (sortByStart memoryMap) with
  | none => Except.error BootError.noMemoryRegions
  | some maxPhys =>
    if kernelStart = 0 then Except.error BootError.kernelStartZero
    else
      Except.ok
        (LegacyFrameAllocator.new_starting_at ((kernelStart + kernelLen - 1) / PAGE_SIZE + 1)
          ((sortByStart memoryMap).map E820MemoryRegion.toRegion), maxPhys)

/-- The frame allocator exactly as `_start` constructs it
(`main.rs` lines 59-66): cursor at `kernel_end + 1`, the frame
immediately after the last frame occupied by the kernel image. -/
def stage4Allocator (kernelStart kernelSize : Nat)
    (regions : List TestMemoryRegion) : LegacyFrameAllocator :=
  LegacyFrameAllocator.new_starting_at
    ((kernelStart + kernelSize - 1) / PAGE_SIZE + 1) regions

/-- 2 MiB frame size (`Size2MiB`). -/
def TWO_MIB : Nat := 0x200000

/-- The fixed high-water mark already identity-mapped by the earlier
boot stage: `4096 * 512 * 512 * 10` bytes, i.e. 10 GiB
(`main.rs` line 79). -/
def ALREADY_MAPPED : Nat := 4096 * 512 * 512 * 10

/-- `PageTableFlags::PRESENT | PageTableFlags::WRITABLE` as a bit mask
(bit 0 and bit 1). -/
def PRESENT_WRITABLE : Nat := 3

/-- The 2 MiB frame numbers iterated by the identity-map loop
(`main.rs` lines 76-93): `PhysFrame::range_inclusive` from the frame
containing the 10 GiB mark to the frame containing
`max_phys_addr - 1`. -/
def frameRange (maxPhys : Nat) : List Nat :=
  List.range' (ALREADY_MAPPED / TWO_MIB) ((maxPhys - 1) / TWO_MIB + 1 - ALREADY_MAPPED / TWO_MIB)

/-- One installed page-table mapping: virtual page address, physical
frame address, flags. -/
structure MappingEntry where
  virt : Nat
  phys : Nat
  flags : Nat
deriving DecidableEq, Repr

/-- The identity-map loop body over a list of 2 MiB frames
(`main.rs` lines 81-92): each step asks the external mapper to
identity-map the frame (virtual address equal to physical address) with
`PRESENT | WRITABLE`; `mapOk` abstracts whether the external
`identity_map` call succeeds on that frame (allocator exhaustion or an
incompatible existing mapping make it fail), and the `.unwrap()` turns
any failure into the fatal panic, modelled as `none`. -/
def identityMapGo (mapOk : Nat → Bool) (st : List MappingEntry) :
    List Nat → Option (List MappingEntry)
  | [] => some st
  | f :: fs =>
    if mapOk f then
      identityMapGo mapOk
        (st ++ [{ virt := f * TWO_MIB, phys := f * TWO_MIB, flags := PRESENT_WRITABLE }]) fs
    else none

/-- The whole identity-map loop of `_start` for a given highest
physical address. -/
def identityMapAll (mapOk : Nat → Bool) (maxPhys : Nat) : Option (List MappingEntry) :=
  identityMapGo mapOk [] (frameRange maxPhys)

/-- The final-map assertions of `test_kernel_and_ram_in_same_region`
(`src/tests/memory_regions.rs` lines 66-119), transcribed literally:
the test expects the ramdisk region to end at `0x61000` and usable
memory to resume there, although the ramdisk carve-out passed to
`construct_memory_map` starts at `0x60000` with length `0x2000`. -/
def testExpectedRegions : List MemoryRegion :=
  [{ start := 0, endAddr := 0x1000, kind := MemoryRegionKind.Bootloader },
   { start := 0x1000, endAddr := 0x50000, kind := MemoryRegionKind.Usable },
   { start := 0x50000, endAddr := 0x51000, kind := MemoryRegionKind.Bootloader },
   { start := 0x51000, endAddr := 0x60000, kind := MemoryRegionKind.Usable },
   { start := 0x60000, endAddr := 0x61000, kind := MemoryRegionKind.Bootloader },
   { start := 0x61000, endAddr := 0x7FFFFF, kind := MemoryRegionKind.Usable }]

theorem mem_insertPt {x y : Nat} {l : List Nat} :
    y ∈ insertPt x l ↔ y = x ∨ y ∈ l := by
  induction l with
  | nil => simp [insertPt]
  | cons z zs ih =>
    unfold insertPt
    split_ifs with h1 h2
    · simp [List.mem_cons]
    · subst h2
      simp only [List.mem_cons]
      tauto
    · simp only [List.mem_cons, ih]
      tauto

theorem insertPt_head {x y : Nat} {l : List Nat}
    (hy : y ∈ (insertPt x l).head?) : y = x ∨ y ∈ l.head? := by
  cases l with
  | nil =>
    simp [insertPt] at hy
    tauto
  | cons w ws =>
    unfold insertPt at hy
    split_ifs at hy <;> simp at hy ⊢ <;> tauto

theorem chain_insertPt {x : Nat} {l : List Nat} (h : l.Chain' (· < ·)) :
    (insertPt x l).Chain' (· < ·) := by
  induction l with
  | nil => simp [insertPt]
  | cons z zs ih =>
    rw [List.chain'_cons'] at h
    obtain ⟨hz, hzs⟩ := h
    unfold insertPt
    split_ifs with h1 h2
    · rw [List.chain'_cons']
      refine ⟨?_, ?_⟩
      · intro y hy
        simp at hy
        omega
      · rw [List.chain'_cons']
        exact ⟨hz, hzs⟩
    · rw [List.chain'_cons']
      exact ⟨hz, hzs⟩
    · have hzx : z < x := by omega
      rw [List.chain'_cons']
      refine ⟨?_, ih hzs⟩
      intro y hy
      rcases insertPt_head hy with rfl | hmem
      · exact hzx
      · exact hz y hmem

theorem mem_sortedPoints {y : Nat} {l : List Nat} :
    y ∈ sortedPoints l ↔ y ∈ l := by
  induction l with
  | nil => simp [sortedPoints]
  | cons z zs ih =>
    show y ∈ insertPt z (sortedPoints zs) ↔ _
    rw [mem_insertPt]
    simp only [List.mem_cons, ih]

theorem chain_sortedPoints (l : List Nat) :
    (sortedPoints l).Chain' (· < ·) := by
  induction l with
  | nil => simp [sortedPoints]
  | cons z zs ih => exact chain_insertPt ih

theorem chain_lt_of_mem {a : Nat} {tail : List Nat}
    (h : (a :: tail).Chain' (· < ·)) : ∀ q ∈ tail, a < q := by
  rw [List.chain'_iff_pairwise] at h
  exact (List.pairwise_cons.mp h).1

theorem consecPairs_mem : ∀ {l : List Nat} {p : Nat × Nat},
    p ∈ consecPairs l → p.1 ∈ l ∧ p.2 ∈ l := by
  intro l
  induction l with
  | nil =>
    intro p hp
    simp [consecPairs] at hp
  | cons a tail ih =>
    intro p hp
    cases tail with
    | nil => simp [consecPairs] at hp
    | cons b rest =>
      simp only [consecPairs, List.mem_cons] at hp
      rcases hp with rfl | h
      · simp
      · have := ih h
        simp only [List.mem_cons] at this ⊢
        tauto

theorem consecPairs_lt : ∀ {l : List Nat}, l.Chain' (· < ·) →
    ∀ {u v : Nat}, (u, v) ∈ consecPairs l → u < v := by
  intro l
  induction l with
  | nil =>
    intro _ u v hp
    simp [consecPairs] at hp
  | cons a tail ih =>
    intro hch u v hp
    cases tail with
    | nil => simp [consecPairs] at hp
    | cons b rest =>
      rw [List.chain'_cons] at hch
      simp only [consecPairs, List.mem_cons, Prod.mk.injEq] at hp
      rcases hp with ⟨rfl, rfl⟩ | h
      · exact hch.1
      · exact ih hch.2 h

theorem consecPairs_no_between : ∀ {l : List Nat}, l.Chain' (· < ·) →
    ∀ {u v : Nat}, (u, v) ∈ consecPairs l → ∀ q ∈ l, ¬(u < q ∧ q < v) := by
  intro l
  induction l with
  | nil =>
    intro _ u v hp
    simp [consecPairs] at hp
  | cons a tail ih =>
    intro hch u v hp q hq
    cases tail with
    | nil => simp [consecPairs] at hp
    | cons b rest =>
      have hch2 : (b :: rest).Chain' (· < ·) := (List.chain'_cons.mp hch).2
      simp only [consecPairs, List.mem_cons, Prod.mk.injEq] at hp
      rcases hp with ⟨hu, hv⟩ | h
      · rcases List.mem_cons.mp hq with hqa | hq2
        · omega
        · have hbq : b ≤ q := by
            rcases List.mem_cons.mp hq2 with hqb | hq3
            · omega
            · exact Nat.le_of_lt (chain_lt_of_mem hch2 q hq3)
          omega
      · rcases List.mem_cons.mp hq with hqa | hq2
        · have hu_mem : u ∈ b :: rest := (consecPairs_mem h).1
          have hau : a < u := chain_lt_of_mem hch u hu_mem
          omega
        · exact ih hch2 h q hq2

theorem consecPairs_bracket : ∀ {l : List Nat}, l.Chain' (· < ·) →
    ∀ {a b x : Nat}, a ∈ l → b ∈ l → a ≤ x → x < b →
    ∃ u v, (u, v) ∈ consecPairs l ∧ u ≤ x ∧ x < v := by
  intro l
  induction l with
  | nil => simp
  | cons c tail ih =>
    intro hch a b x ha hb hax hxb
    have hca : c ≤ a := by
      rcases List.mem_cons.mp ha with rfl | h
      · exact Nat.le_refl a
      · exact Nat.le_of_lt (chain_lt_of_mem hch a h)
    cases tail with
    | nil =>
      simp at ha hb
      omega
    | cons d rest =>
      have hch2 : (d :: rest).Chain' (· < ·) := (List.chain'_cons.mp hch).2
      by_cases hxd : x < d
      · exact ⟨c, d, by simp [consecPairs], by omega, hxd⟩
      · have hb2 : b ∈ d :: rest := by
          rcases List.mem_cons.mp hb with rfl | h
          · omega
          · exact h
        obtain ⟨u, v, hm, h1, h2⟩ :=
          ih hch2 (List.mem_cons_self d rest) hb2 (by omega) hxb
        exact ⟨u, v, by simp only [consecPairs, List.mem_cons]; tauto, h1, h2⟩

theorem covers_constant {ivls : List (Nat × Nat)} {pts : List Nat}
    (hch : pts.Chain' (· < ·))
    (hsub : ∀ p ∈ ivls, p.1 ∈ pts ∧ p.2 ∈ pts)
    {u v x : Nat} (hp : (u, v) ∈ consecPairs pts) (hux : u ≤ x) (hxv : x < v) :
    Covers ivls x ↔ Covers ivls u := by
  constructor
  · rintro ⟨q, hq, h1, h2⟩
    refine ⟨q, hq, ?_, by omega⟩
    by_contra hlt
    push_neg at hlt
    exact consecPairs_no_between hch hp q.1 (hsub q hq).1 ⟨hlt, by omega⟩
  · rintro ⟨q, hq, h1, h2⟩
    refine ⟨q, hq, by omega, ?_⟩
    by_contra hge
    push_neg at hge
    exact consecPairs_no_between hch hp q.2 (hsub q hq).2 ⟨by omega, by omega⟩

theorem classify_constant {carves usabs : List (Nat × Nat)} {pts : List Nat}
    (hch : pts.Chain' (· < ·))
    (hsubC : ∀ p ∈ carves, p.1 ∈ pts ∧ p.2 ∈ pts)
    (hsubU : ∀ p ∈ usabs, p.1 ∈ pts ∧ p.2 ∈ pts)
    {u v x : Nat} (hp : (u, v) ∈ consecPairs pts) (hux : u ≤ x) (hxv : x < v) :
    classify carves usabs x = classify carves usabs u := by
  have h1 := covers_constant hch hsubC hp hux hxv
  have h2 := covers_constant hch hsubU hp hux hxv
  unfold classify
  rw [if_congr h1 rfl (if_congr h2 rfl rfl)]

/-- Every region of the list has positive width. -/
def RegionsWF (l : List MemoryRegion) : Prop :=
  ∀ r ∈ l, r.start < r.endAddr

/-- Consecutive regions never overlap: each ends at or before the next
one starts. -/
def RegionsOrdered (l : List MemoryRegion) : Prop :=
  l.Chain' (fun r s => r.endAddr ≤ s.start)

theorem outCovers_nil {x : Nat} : ¬ OutCovers [] x := by
  rintro ⟨r, hr, _⟩
  simp at hr

theorem outCovers_cons {a : MemoryRegion} {l : List MemoryRegion} {x : Nat} :
    OutCovers (a :: l) x ↔ (a.start ≤ x ∧ x < a.endAddr) ∨ OutCovers l x := by
  unfold OutCovers
  constructor
  · rintro ⟨r, hr, h1, h2⟩
    rcases List.mem_cons.mp hr with rfl | hmem
    · exact Or.inl ⟨h1, h2⟩
    · exact Or.inr ⟨r, hmem, h1, h2⟩
  · rintro (⟨h1, h2⟩ | ⟨r, hmem, h1, h2⟩)
    · exact ⟨a, List.mem_cons_self a l, h1, h2⟩
    · exact ⟨r, List.mem_cons_of_mem a hmem, h1, h2⟩

theorem mem_segmentsOf {f : Nat → Option MemoryRegionKind} {pts : List Nat}
    {r : MemoryRegion} :
    r ∈ segmentsOf f pts ↔ ∃ u v k, (u, v) ∈ consecPairs pts ∧ f u = some k ∧
      r = { start := u, endAddr := v, kind := k } := by
  unfold segmentsOf
  rw [List.mem_filterMap]
  constructor
  · rintro ⟨p, hp, hmap⟩
    obtain ⟨k, hk, hr⟩ := Option.map_eq_some'.mp hmap
    exact ⟨p.1, p.2, k, hp, hk, hr.symm⟩
  · rintro ⟨u, v, k, hp, hf, rfl⟩
    refine ⟨(u, v), hp, ?_⟩
    rw [hf]
    rfl

theorem segments_wf {f : Nat → Option MemoryRegionKind} {pts : List Nat}
    (hch : pts.Chain' (· < ·)) : RegionsWF (segmentsOf f pts) := by
  intro r hr
  obtain ⟨u, v, k, hp, _, rfl⟩ := mem_segmentsOf.mp hr
  exact consecPairs_lt hch hp

theorem chain_le_of_mem {a : Nat} {l : List Nat}
    (h : (a :: l).Chain' (· < ·)) : ∀ q ∈ a :: l, a ≤ q := by
  intro q hq
  rcases List.mem_cons.mp hq with rfl | hmem
  · exact Nat.le_refl q
  · exact Nat.le_of_lt (chain_lt_of_mem h q hmem)

theorem segments_start_lb {f : Nat → Option MemoryRegionKind} :
    ∀ {a : Nat} {tail : List Nat}, (a :: tail).Chain' (· < ·) →
    ∀ r ∈ segmentsOf f (a :: tail), a ≤ r.start := by
  intro a tail hch r hr
  obtain ⟨u, v, k, hp, _, rfl⟩ := mem_segmentsOf.mp hr
  exact chain_le_of_mem hch u (consecPairs_mem hp).1

theorem segmentsOf_cons₂ {f : Nat → Option MemoryRegionKind} {a b : Nat}
    {rest : List Nat} :
    segmentsOf f (a :: b :: rest) =
      (match f a with
        | some k => [MemoryRegion.mk a b k]
        | none => []) ++ segmentsOf f (b :: rest) := by
  show List.filterMap _ ((a, b) :: consecPairs (b :: rest)) = _
  rw [List.filterMap_cons]
  cases f a <;> rfl

theorem segments_ordered {f : Nat → Option MemoryRegionKind} :
    ∀ {pts : List Nat}, pts.Chain' (· < ·) →
    RegionsOrdered (segmentsOf f pts) := by
  intro pts
  induction pts with
  | nil =>
    intro _
    simp [segmentsOf, consecPairs, RegionsOrdered]
  | cons a tail ih =>
    intro hch
    cases tail with
    | nil => simp [segmentsOf, consecPairs, RegionsOrdered]
    | cons b rest =>
      have hch2 : (b :: rest).Chain' (· < ·) := (List.chain'_cons.mp hch).2
      have hIH := ih hch2
      show RegionsOrdered (segmentsOf f (a :: b :: rest))
      rw [segmentsOf_cons₂]
      cases hfa : f a with
      | none => simpa using hIH
      | some k =>
        simp only [List.singleton_append]
        rw [RegionsOrdered, List.chain'_cons']
        refine ⟨?_, hIH⟩
        intro s hs
        have hmem : s ∈ segmentsOf f (b :: rest) := List.mem_of_mem_head? hs
        exact segments_start_lb hch2 s hmem

theorem mergeAdjacent_wf : ∀ {l : List MemoryRegion},
    RegionsWF l → RegionsWF (mergeAdjacent l) := by
  intro l
  induction l with
  | nil =>
    intro h
    simpa [mergeAdjacent] using h
  | cons r rest ih =>
    intro h
    have hr : r.start < r.endAddr := h r (List.mem_cons_self r rest)
    have hrest : RegionsWF rest := fun s hs => h s (List.mem_cons_of_mem r hs)
    have hm := ih hrest
    unfold mergeAdjacent
    cases hM : mergeAdjacent rest with
    | nil =>
      intro t ht
      simp at ht
      subst ht
      exact hr
    | cons s tail =>
      rw [hM] at hm
      have hs : s.start < s.endAddr := hm s (List.mem_cons_self s tail)
      dsimp only
      split_ifs with hcond
      · intro t ht
        rcases List.mem_cons.mp ht with rfl | ht2
        · show r.start < s.endAddr
          omega
        · exact hm t (List.mem_cons_of_mem s ht2)
      · intro t ht
        rcases List.mem_cons.mp ht with rfl | ht2
        · exact hr
        · exact hm t ht2

theorem mergeAdjacent_covers {x : Nat} : ∀ {l : List MemoryRegion},
    RegionsWF l → (OutCovers (mergeAdjacent l) x ↔ OutCovers l x) := by
  intro l
  induction l with
  | nil => simp [mergeAdjacent]
  | cons r rest ih =>
    intro h
    have hr : r.start < r.endAddr := h r (List.mem_cons_self r rest)
    have hrest : RegionsWF rest := fun s hs => h s (List.mem_cons_of_mem r hs)
    have hwm := mergeAdjacent_wf hrest
    unfold mergeAdjacent
    cases hM : mergeAdjacent rest with
    | nil =>
      have hrest_iff : OutCovers rest x ↔ False := by
        rw [← ih hrest, hM]
        simpa using outCovers_nil
      rw [outCovers_cons, outCovers_cons, hrest_iff]
      have hnil : ¬ OutCovers [] x := outCovers_nil
      tauto
    | cons s tail =>
      rw [hM] at hwm
      have hs : s.start < s.endAddr := hwm s (List.mem_cons_self s tail)
      have hrest_iff : OutCovers rest x ↔
          (s.start ≤ x ∧ x < s.endAddr) ∨ OutCovers tail x := by
        rw [← ih hrest, hM, outCovers_cons]
      dsimp only
      split_ifs with hcond
      · obtain ⟨hend, hkind⟩ := hcond
        rw [outCovers_cons, outCovers_cons, hrest_iff]
        dsimp only
        constructor
        · rintro (⟨h1, h2⟩ | hT)
          · by_cases hx : x < r.endAddr
            · exact Or.inl ⟨h1, hx⟩
            · refine Or.inr (Or.inl ⟨by omega, h2⟩)
          · exact Or.inr (Or.inr hT)
        · rintro (⟨h1, h2⟩ | ⟨h1, h2⟩ | hT)
          · exact Or.inl ⟨h1, by omega⟩
          · exact Or.inl ⟨by omega, h2⟩
          · exact Or.inr hT
      · rw [outCovers_cons, outCovers_cons, outCovers_cons, hrest_iff]

theorem mergeAdjacent_chain : ∀ {l : List MemoryRegion},
    (mergeAdjacent l).Chain' (fun r s => ¬(r.endAddr = s.start ∧ r.kind = s.kind)) := by
  intro l
  induction l with
  | nil => simp [mergeAdjacent]
  | cons r rest ih =>
    unfold mergeAdjacent
    cases hM : mergeAdjacent rest with
    | nil => simp
    | cons s tail =>
      rw [hM] at ih
      dsimp only
      split_ifs with hcond
      · rw [List.chain'_cons'] at ih ⊢
        refine ⟨?_, ih.2⟩
        intro t ht
        have hst := ih.1 t ht
        show ¬(s.endAddr = t.start ∧ r.kind = t.kind)
        rw [hcond.2]
        exact hst
      · exact List.chain'_cons.mpr ⟨hcond, ih⟩

theorem mergeAdjacent_head {r : MemoryRegion} {rest : List MemoryRegion} :
    ∃ e tail, mergeAdjacent (r :: rest) =
      { start := r.start, endAddr := e, kind := r.kind } :: tail := by
  unfold mergeAdjacent
  cases mergeAdjacent rest with
  | nil => exact ⟨r.endAddr, [], rfl⟩
  | cons s tail =>
    dsimp only
    split_ifs with hcond
    · exact ⟨s.endAddr, tail, rfl⟩
    · exact ⟨r.endAddr, s :: tail, rfl⟩

theorem mergeAdjacent_ordered : ∀ {l : List MemoryRegion},
    RegionsWF l → RegionsOrdered l → RegionsOrdered (mergeAdjacent l) := by
  intro l
  induction l with
  | nil =>
    intro _ h
    simpa [mergeAdjacent] using h
  | cons r rest ih =>
    intro hwf hord
    have hrest : RegionsWF rest := fun s hs => hwf s (List.mem_cons_of_mem r hs)
    have hordrest : RegionsOrdered rest := (List.chain'_cons'.mp hord).2
    have hIH := ih hrest hordrest
    unfold mergeAdjacent
    cases hM : mergeAdjacent rest with
    | nil => simp [RegionsOrdered]
    | cons s tail =>
      rw [hM] at hIH
      dsimp only
      split_ifs with hcond
      · rw [RegionsOrdered, List.chain'_cons'] at hIH ⊢
        refine ⟨?_, hIH.2⟩
        intro t ht
        exact hIH.1 t ht
      · rw [RegionsOrdered, List.chain'_cons']
        refine ⟨?_, hIH⟩
        intro t ht
        simp only [List.head?_cons, Option.mem_def, Option.some.injEq] at ht
        subst ht
        cases rest with
        | nil => simp [mergeAdjacent] at hM
        | cons r2 rest2 =>
          obtain ⟨e, tail2, hhead⟩ := @mergeAdjacent_head r2 rest2
          rw [hhead] at hM
          have hss : s.start = r2.start := by
            have hhd := List.head_eq_of_cons_eq hM
            exact (congrArg MemoryRegion.start hhd).symm
          have hre : r.endAddr ≤ r2.start := by
            have := (List.chain'_cons'.mp hord).1
            exact this r2 (by simp)
          omega

theorem mem_endpointsOf {l : List (Nat × Nat)} {p : Nat × Nat} (hp : p ∈ l) :
    p.1 ∈ endpointsOf l ∧ p.2 ∈ endpointsOf l := by
  induction l with
  | nil => simp at hp
  | cons q qs ih =>
    show _ ∈ q.1 :: q.2 :: endpointsOf qs ∧ _ ∈ q.1 :: q.2 :: endpointsOf qs
    rcases List.mem_cons.mp hp with rfl | h
    · simp
    · have := ih h
      simp only [List.mem_cons]
      tauto

theorem endpoints_sub_left {carves usabs : List (Nat × Nat)} :
    ∀ p ∈ carves,
      p.1 ∈ boundaryPoints carves usabs ∧ p.2 ∈ boundaryPoints carves usabs := by
  intro p hp
  have h := mem_endpointsOf hp
  unfold boundaryPoints
  constructor <;> rw [mem_sortedPoints, List.mem_append] <;> tauto

theorem endpoints_sub_right {carves usabs : List (Nat × Nat)} :
    ∀ p ∈ usabs,
      p.1 ∈ boundaryPoints carves usabs ∧ p.2 ∈ boundaryPoints carves usabs := by
  intro p hp
  have h := mem_endpointsOf hp
  unfold boundaryPoints
  constructor <;> rw [mem_sortedPoints, List.mem_append] <;> tauto

theorem classify_eq_some_iff {carves usabs : List (Nat × Nat)} {x : Nat} :
    (∃ k, classify carves usabs x = some k) ↔ Covers carves x ∨ Covers usabs x := by
  unfold classify
  split_ifs with h1 h2 <;> simp_all

theorem segments_covers {carves usabs : List (Nat × Nat)} {x : Nat}
    (h0 : 0 ∈ boundaryPoints carves usabs) :
    OutCovers (segmentsOf (classify carves usabs) (boundaryPoints carves usabs)) x ↔
      Covers carves x ∨ Covers usabs x := by
  have hch : (boundaryPoints carves usabs).Chain' (· < ·) := chain_sortedPoints _
  have hsubC : ∀ p ∈ carves,
      p.1 ∈ boundaryPoints carves usabs ∧ p.2 ∈ boundaryPoints carves usabs :=
    endpoints_sub_left
  have hsubU : ∀ p ∈ usabs,
      p.1 ∈ boundaryPoints carves usabs ∧ p.2 ∈ boundaryPoints carves usabs :=
    endpoints_sub_right
  constructor
  · rintro ⟨r, hr, h1, h2⟩
    obtain ⟨u, v, k, hp, hk, rfl⟩ := mem_segmentsOf.mp hr
    have hcx : classify carves usabs x = some k := by
      rw [classify_constant hch hsubC hsubU hp h1 h2]
      exact hk
    exact classify_eq_some_iff.mp ⟨k, hcx⟩
  · intro hcov
    obtain ⟨k, hck⟩ := classify_eq_some_iff.mpr hcov
    have hb : ∃ b ∈ boundaryPoints carves usabs, x < b := by
      rcases hcov with ⟨q, hq, hq1, hq2⟩ | ⟨q, hq, hq1, hq2⟩
      · exact ⟨q.2, (hsubC q hq).2, hq2⟩
      · exact ⟨q.2, (hsubU q hq).2, hq2⟩
    obtain ⟨b, hbmem, hxb⟩ := hb
    obtain ⟨u, v, hp, hux, hxv⟩ :=
      consecPairs_bracket hch h0 hbmem (Nat.zero_le x) hxb
    have hcu : classify carves usabs u = some k := by
      rw [← classify_constant hch hsubC hsubU hp hux hxv]
      exact hck
    exact ⟨_, mem_segmentsOf.mpr ⟨u, v, k, hp, hcu, rfl⟩, hux, hxv⟩

theorem ordered_head_le : ∀ {rest : List MemoryRegion} {r : MemoryRegion},
    RegionsOrdered (r :: rest) → RegionsWF rest →
    ∀ s ∈ rest, r.endAddr ≤ s.start := by
  intro rest
  induction rest with
  | nil =>
    intro r _ _ s hs
    simp at hs
  | cons t ts ih =>
    intro r hord hwf s hs
    have h1 : r.endAddr ≤ t.start := (List.chain'_cons.mp hord).1
    rcases List.mem_cons.mp hs with rfl | hs2
    · exact h1
    · have hord2 : RegionsOrdered (t :: ts) := (List.chain'_cons.mp hord).2
      have hwf2 : RegionsWF ts := fun q hq => hwf q (List.mem_cons_of_mem t hq)
      have h2 := ih hord2 hwf2 s hs2
      have ht : t.start < t.endAddr := hwf t (List.mem_cons_self t ts)
      omega

theorem ordered_wf_pairwise : ∀ {l : List MemoryRegion},
    RegionsOrdered l → RegionsWF l →
    l.Pairwise (fun r s => r.endAddr ≤ s.start) := by
  intro l
  induction l with
  | nil =>
    intro _ _
    simp
  | cons r rest ih =>
    intro hord hwf
    have hordrest : RegionsOrdered rest := (List.chain'_cons'.mp hord).2
    have hwfrest : RegionsWF rest := fun s hs => hwf s (List.mem_cons_of_mem r hs)
    rw [List.pairwise_cons]
    exact ⟨ordered_head_le hord hwfrest, ih hordrest hwfrest⟩

theorem chain_boundaryPoints (carves usabs : List (Nat × Nat)) :
    (boundaryPoints carves usabs).Chain' (· < ·) :=
  chain_sortedPoints _

theorem construct_covers (a : LegacyFrameAllocator) (ks kl : Nat)
    (rs : Option Nat) (rl : Nat) (x : Nat) :
    OutCovers (construct_memory_map a ks kl rs rl) x ↔
      Covers (carveList (a.next_frame * PAGE_SIZE) ks kl rs rl) x ∨
        Covers (usables a.regions) x := by
  have h0 : 0 ∈ boundaryPoints (carveList (a.next_frame * PAGE_SIZE) ks kl rs rl)
      (usables a.regions) := by
    have hm : ((0 : Nat), a.next_frame * PAGE_SIZE) ∈
        carveList (a.next_frame * PAGE_SIZE) ks kl rs rl := by
      unfold carveList
      exact List.mem_cons_self _ _
    exact (endpoints_sub_left _ hm).1
  unfold construct_memory_map
  rw [mergeAdjacent_covers (segments_wf (chain_boundaryPoints _ _)), segments_covers h0]

theorem construct_ordered_wf (a : LegacyFrameAllocator) (ks kl : Nat)
    (rs : Option Nat) (rl : Nat) :
    RegionsOrdered (construct_memory_map a ks kl rs rl) ∧
      RegionsWF (construct_memory_map a ks kl rs rl) := by
  unfold construct_memory_map
  have hch := chain_boundaryPoints
    (carveList (a.next_frame * PAGE_SIZE) ks kl rs rl) (usables a.regions)
  exact ⟨mergeAdjacent_ordered (segments_wf hch) (segments_ordered hch),
    mergeAdjacent_wf (segments_wf hch)⟩

theorem chain_zero_head {l : List Nat} (hch : l.Chain' (· < ·)) (h0 : 0 ∈ l)
    {b : Nat} (hb : b ∈ l) (hbne : b ≠ 0) : ∃ p2 rest, l = 0 :: p2 :: rest := by
  cases l with
  | nil => simp at h0
  | cons c tail =>
    have hc0 : c = 0 := by
      rcases List.mem_cons.mp h0 with h | h
      · omega
      · have := chain_lt_of_mem hch 0 h
        omega
    subst hc0
    cases tail with
    | nil =>
      simp at hb
      omega
    | cons p2 rest => exact ⟨p2, rest, rfl⟩

theorem construct_head_general {carves us : List (Nat × Nat)} {e0 : Nat}
    (hboot : (0, e0) ∈ carves) (hpos : 0 < e0) :
    ∃ e t, mergeAdjacent (segmentsOf (classify carves us) (boundaryPoints carves us)) =
      { start := 0, endAddr := e, kind := MemoryRegionKind.Bootloader } :: t := by
  have hch : (boundaryPoints carves us).Chain' (· < ·) := chain_boundaryPoints _ _
  have h0 : 0 ∈ boundaryPoints carves us := (@endpoints_sub_left carves us _ hboot).1
  have hBE : e0 ∈ boundaryPoints carves us := (@endpoints_sub_left carves us _ hboot).2
  have hBEne : e0 ≠ 0 := by omega
  obtain ⟨p2, rest, hpts⟩ := chain_zero_head hch h0 hBE hBEne
  have hc0 : classify carves us 0 = some MemoryRegionKind.Bootloader := by
    unfold classify
    rw [if_pos (show Covers carves 0 from ⟨(0, e0), hboot, Nat.le_refl 0, hpos⟩)]
  rw [hpts, segmentsOf_cons₂, hc0, List.singleton_append]
  exact mergeAdjacent_head

theorem construct_head (f : Nat) (regions : List TestMemoryRegion)
    (ks kl : Nat) (rs : Option Nat) (rl : Nat) :
    ∃ e t, construct_memory_map (LegacyFrameAllocator.new_starting_at f regions) ks kl rs rl =
      { start := 0, endAddr := e, kind := MemoryRegionKind.Bootloader } :: t := by
  unfold construct_memory_map
  apply @construct_head_general _ _
    ((LegacyFrameAllocator.new_starting_at f regions).next_frame * PAGE_SIZE)
  · unfold carveList
    exact List.mem_cons_self _ _
  · show 0 < max f 1 * 4096
    omega

theorem listMin_mem : ∀ {l : List Nat} {m : Nat}, listMin l = some m → m ∈ l := by
  intro l
  induction l with
  | nil =>
    intro m h
    simp [listMin] at h
  | cons x xs ih =>
    intro m h
    unfold listMin at h
    cases hxs : listMin xs with
    | none =>
      rw [hxs] at h
      simp at h
      simp [h]
    | some k =>
      rw [hxs] at h
      simp at h
      rcases Nat.le_total x k with hle | hle
      · rw [Nat.min_eq_left hle] at h
        simp [h]
      · rw [Nat.min_eq_right hle] at h
        have := ih (hxs.trans (congrArg some h))
        simp [this]

theorem usableFrameFrom_lb {n : Nat} {r : TestMemoryRegion} {f : Nat}
    (h : usableFrameFrom n r = some f) : n ≤ f := by
  unfold usableFrameFrom at h
  split_ifs at h with h1 h2
  simp at h
  omega

theorem allocate_frame_step {a : LegacyFrameAllocator} {f : Nat} {a2 : LegacyFrameAllocator}
    (h : a.allocate_frame = some (f, a2)) :
    a.next_frame ≤ f ∧ a2.next_frame = f + 1 ∧ a2.regions = a.regions := by
  unfold LegacyFrameAllocator.allocate_frame at h
  cases hm : listMin (a.regions.filterMap (usableFrameFrom a.next_frame)) with
  | none =>
    rw [hm] at h
    simp at h
  | some g =>
    rw [hm] at h
    simp only [Option.some.injEq, Prod.mk.injEq] at h
    obtain ⟨hgf, ha2⟩ := h
    have hg : g ∈ a.regions.filterMap (usableFrameFrom a.next_frame) := listMin_mem hm
    obtain ⟨r, _, hfr⟩ := List.mem_filterMap.mp hg
    have hlb := usableFrameFrom_lb hfr
    subst hgf
    rw [← ha2]
    exact ⟨hlb, rfl, rfl⟩

theorem allocSeq_lb : ∀ (k : Nat) (a : LegacyFrameAllocator),
    ∀ f ∈ allocSeq a k, a.next_frame ≤ f := by
  intro k
  induction k with
  | zero =>
    intro a f hf
    simp [allocSeq] at hf
  | succ n ih =>
    intro a f hf
    unfold allocSeq at hf
    cases hstep : a.allocate_frame with
    | none =>
      rw [hstep] at hf
      simp at hf
    | some fa =>
      obtain ⟨g, a2⟩ := fa
      rw [hstep] at hf
      obtain ⟨h1, h2, _⟩ := allocate_frame_step hstep
      rcases List.mem_cons.mp hf with rfl | hf2
      · exact h1
      · have := ih a2 f hf2
        omega

theorem allocSeq_chain : ∀ (k : Nat) (a : LegacyFrameAllocator),
    (allocSeq a k).Chain' (· < ·) := by
  intro k
  induction k with
  | zero =>
    intro a
    simp [allocSeq]
  | succ n ih =>
    intro a
    unfold allocSeq
    cases hstep : a.allocate_frame with
    | none => simp
    | some fa =>
      obtain ⟨g, a2⟩ := fa
      rw [List.chain'_cons']
      refine ⟨?_, ih a2⟩
      intro y hy
      have hy2 : y ∈ allocSeq a2 n := List.mem_of_mem_head? hy
      have hlb := allocSeq_lb n a2 y hy2
      obtain ⟨_, h2, _⟩ := allocate_frame_step hstep
      omega

theorem identityMapGo_sub {mapOk : Nat → Bool} :
    ∀ {fs : List Nat} {st L : List MappingEntry}, identityMapGo mapOk st fs = some L →
    (∀ e ∈ st, e ∈ L) ∧
    ∀ f ∈ fs,
      ({ virt := f * TWO_MIB, phys := f * TWO_MIB, flags := PRESENT_WRITABLE } :
        MappingEntry) ∈ L := by
  intro fs
  induction fs with
  | nil =>
    intro st L h
    simp [identityMapGo] at h
    subst h
    exact ⟨fun e he => he, by simp⟩
  | cons g gs ih =>
    intro st L h
    unfold identityMapGo at h
    split_ifs at h with hok
    have hsub := ih h
    constructor
    · intro e he
      exact hsub.1 e (List.mem_append_left _ he)
    · intro f hf
      rcases List.mem_cons.mp hf with rfl | hf2
      · exact hsub.1 _ (List.mem_append_right _ (List.mem_singleton_self _))
      · exact hsub.2 f hf2

theorem identityMapGo_fail {mapOk : Nat → Bool} :
    ∀ {fs : List Nat} {st : List MappingEntry} {f : Nat}, f ∈ fs → mapOk f = false →
    identityMapGo mapOk st fs = none := by
  intro fs
  induction fs with
  | nil =>
    intro st f hf
    simp at hf
  | cons g gs ih =>
    intro st f hf hfail
    unfold identityMapGo
    cases hok : mapOk g with
    | false => simp
    | true =>
      simp only [if_true]
      rcases List.mem_cons.mp hf with rfl | hf2
      · rw [hok] at hfail
        simp at hfail
      · simpa using ih hf2 hfail

theorem mem_range'_one {s n x : Nat} : x ∈ List.range' s n ↔ s ≤ x ∧ x < s + n := by
  rw [List.mem_range']
  constructor
  · rintro ⟨i, hi, rfl⟩
    omega
  · rintro ⟨h1, h2⟩
    exact ⟨x - s, by omega, by omega⟩

theorem mem_frameRange {m n : Nat} (hgt : ALREADY_MAPPED < m) :
    n ∈ frameRange m ↔
      ALREADY_MAPPED / TWO_MIB ≤ n ∧ n ≤ (m - 1) / TWO_MIB := by
  have hle : ALREADY_MAPPED / TWO_MIB ≤ (m - 1) / TWO_MIB :=
    Nat.div_le_div_right (by omega)
  unfold frameRange
  rw [mem_range'_one]
  omega

/-- C1: for the firmware region `[0, 0x7FFFFF)` Usable with kernel
carve-out `[0x50000, 0x51000)` and a ramdisk carve-out given as start
`0x60000` with length `0x2000`, `construct_memory_map` emits exactly the
six regions `[0,0x1000) Bootloader`, `[0x1000,0x50000) Usable`,
`[0x50000,0x51000) Bootloader`, `[0x51000,0x60000) Usable`,
`[0x60000,0x62000) Bootloader`, `[0x62000,0x7FFFFF) Usable` — and the
in-repo test `test_kernel_and_ram_in_same_region` asserts a different
list (ramdisk region ending at `0x61000`, usable memory resuming at
`0x61000`), so the test's expectations contradict the specified
behaviour on this very input. -/
theorem c1_ramdisk_region_eval :
    construct_memory_map (LegacyFrameAllocator.new
        [{ start := 0, len := 0x7FFFFF, kind := MemoryRegionKind.Usable }])
      0x50000 0x1000 (some 0x60000) 0x2000 =
      [{ start := 0, endAddr := 0x1000, kind := MemoryRegionKind.Bootloader },
       { start := 0x1000, endAddr := 0x50000, kind := MemoryRegionKind.Usable },
       { start := 0x50000, endAddr := 0x51000, kind := MemoryRegionKind.Bootloader },
       { start := 0x51000, endAddr := 0x60000, kind := MemoryRegionKind.Usable },
       { start := 0x60000, endAddr := 0x62000, kind := MemoryRegionKind.Bootloader },
       { start := 0x62000, endAddr := 0x7FFFFF, kind := MemoryRegionKind.Usable }] ∧
    testExpectedRegions ≠
      [{ start := 0, endAddr := 0x1000, kind := MemoryRegionKind.Bootloader },
       { start := 0x1000, endAddr := 0x50000, kind := MemoryRegionKind.Usable },
       { start := 0x50000, endAddr := 0x51000, kind := MemoryRegionKind.Bootloader },
       { start := 0x51000, endAddr := 0x60000, kind := MemoryRegionKind.Usable },
       { start := 0x60000, endAddr := 0x62000, kind := MemoryRegionKind.Bootloader },
       { start := 0x62000, endAddr := 0x7FFFFF, kind := MemoryRegionKind.Usable }] := by
  constructor
  · decide
  · decide

/-- C2: for every firmware region list, every cursor position handed to
the allocator constructor, and any kernel and optional ramdisk
carve-outs, the first region emitted by `construct_memory_map` starts at
physical address 0 and is tagged `Bootloader`, even when no real
allocation began at address 0. -/
theorem c2_first_region_null_guard (f : Nat) (regions : List TestMemoryRegion)
    (ks kl : Nat) (rs : Option Nat) (rl : Nat) :
    ∃ e t, construct_memory_map (LegacyFrameAllocator.new_starting_at f regions) ks kl rs rl =
      { start := 0, endAddr := e, kind := MemoryRegionKind.Bootloader } :: t :=
  construct_head f regions ks kl rs rl

/-- C4: across every sequence of `allocate_frame` calls, each returned
frame is at or above the cursor before the call, the cursor never
decreases, the returned frames are strictly increasing, and no frame is
ever returned twice. -/
theorem c4_allocate_frame_monotonic (a : LegacyFrameAllocator) (k : Nat) :
    (∀ f a2, a.allocate_frame = some (f, a2) →
      a.next_frame ≤ f ∧ a.next_frame ≤ a2.next_frame) ∧
    (∀ f ∈ allocSeq a k, a.next_frame ≤ f) ∧
    (allocSeq a k).Chain' (· < ·) ∧
    (allocSeq a k).Nodup := by
  refine ⟨?_, allocSeq_lb k a, allocSeq_chain k a, ?_⟩
  · intro f a2 h
    have := allocate_frame_step h
    omega
  · have hch := allocSeq_chain k a
    rw [List.chain'_iff_pairwise] at hch
    exact hch.imp Nat.ne_of_lt

/-- C4 witness: the guarantees evaluated on a concrete allocator over a
single usable region, for a sequence of three calls. -/
theorem c4_allocate_frame_monotonic_witness :
    (∀ f a2, (LegacyFrameAllocator.new
        [{ start := 0, len := 0x5000, kind := MemoryRegionKind.Usable }]).allocate_frame =
        some (f, a2) →
      (LegacyFrameAllocator.new
        [{ start := 0, len := 0x5000, kind := MemoryRegionKind.Usable }]).next_frame ≤ f ∧
      (LegacyFrameAllocator.new
        [{ start := 0, len := 0x5000, kind := MemoryRegionKind.Usable }]).next_frame ≤
        a2.next_frame) ∧
    (∀ f ∈ allocSeq (LegacyFrameAllocator.new
        [{ start := 0, len := 0x5000, kind := MemoryRegionKind.Usable }]) 3,
      (LegacyFrameAllocator.new
        [{ start := 0, len := 0x5000, kind := MemoryRegionKind.Usable }]).next_frame ≤ f) ∧
    (allocSeq (LegacyFrameAllocator.new
        [{ start := 0, len := 0x5000, kind := MemoryRegionKind.Usable }]) 3).Chain' (· < ·) ∧
    (allocSeq (LegacyFrameAllocator.new
        [{ start := 0, len := 0x5000, kind := MemoryRegionKind.Usable }]) 3).Nodup :=
  c4_allocate_frame_monotonic
    (LegacyFrameAllocator.new [{ start := 0, len := 0x5000, kind := MemoryRegionKind.Usable }]) 3

/-- C6: an empty firmware memory map makes the boot flow fail
deterministically with the dedicated fatal error before the frame
allocator even exists (so before any allocation can be attempted), and a
zero kernel start address also makes the boot flow fail with a fatal
error; both errors end in the non-returning panic handler. -/
theorem c6_firmware_data_errors_fatal :
    (∀ ks kl, bootStage4 [] ks kl = Except.error BootError.noMemoryRegions) ∧
    (∀ mm kl, ∃ e, bootStage4 mm 0 kl = Except.error e) := by
  constructor
  · intro ks kl
    rfl
  · intro mm kl
    unfold bootStage4
    cases h : maxPhysAddr (sortByStart mm) with
    | none => exact ⟨BootError.noMemoryRegions, rfl⟩
    | some m => exact ⟨BootError.kernelStartZero, by simp⟩

/-- C7: `construct_memory_map` never leaves two touching regions of the
same kind unmerged, and in the concrete scenario without a ramdisk the
usable memory after the kernel is one continuous region
`[0x51000, 0x7FFFFF)`. -/
theorem c7_merge_adjacent :
    (∀ (a : LegacyFrameAllocator) (ks kl : Nat) (rs : Option Nat) (rl : Nat),
      (construct_memory_map a ks kl rs rl).Chain'
        (fun r s => ¬(r.endAddr = s.start ∧ r.kind = s.kind))) ∧
    construct_memory_map (LegacyFrameAllocator.new
        [{ start := 0, len := 0x7FFFFF, kind := MemoryRegionKind.Usable }])
      0x50000 0x1000 none 0 =
      [{ start := 0, endAddr := 0x1000, kind := MemoryRegionKind.Bootloader },
       { start := 0x1000, endAddr := 0x50000, kind := MemoryRegionKind.Usable },
       { start := 0x50000, endAddr := 0x51000, kind := MemoryRegionKind.Bootloader },
       { start := 0x51000, endAddr := 0x7FFFFF, kind := MemoryRegionKind.Usable }] := by
  constructor
  · intro a ks kl rs rl
    unfold construct_memory_map
    exact mergeAdjacent_chain
  · decide

theorem mem_usables {regions : List TestMemoryRegion} {r : TestMemoryRegion}
    (hr : r ∈ regions) (hk : r.kind = MemoryRegionKind.Usable) :
    (r.start, r.start + r.len) ∈ usables regions :=
  List.mem_filterMap.mpr ⟨r, hr, by rw [if_pos hk]⟩

theorem ordered_wf_start_lt : ∀ {l : List MemoryRegion},
    RegionsOrdered l → RegionsWF l →
    l.Chain' (fun r s => r.start < s.start) := by
  intro l
  induction l with
  | nil =>
    intro _ _
    simp
  | cons r rest ih =>
    intro hord hwf
    have h1 := (List.chain'_cons'.mp hord).1
    have hordrest : RegionsOrdered rest := (List.chain'_cons'.mp hord).2
    have hwfrest : RegionsWF rest := fun s hs => hwf s (List.mem_cons_of_mem r hs)
    rw [List.chain'_cons']
    refine ⟨?_, ih hordrest hwfrest⟩
    intro y hy
    have h2 := h1 y hy
    have h3 := hwf r (List.mem_cons_self r rest)
    omega

/-- C3 counterexample: for the Usable firmware input
`[0x100000, 0x200000)` with the kernel carve-out `[0x150000, 0x151000)`
fully inside it, the final map additionally claims the bootloader
null-guard reservation `[0, 0x1000)`, so the union of the emitted
regions covers address 0 while the union of the Usable inputs does not —
the claimed union equality fails at this concrete input. -/
theorem c3_union_counterexample :
    (∀ r ∈ ([{ start := 0x100000, len := 0x100000, kind := MemoryRegionKind.Usable }] :
        List TestMemoryRegion), r.kind = MemoryRegionKind.Usable) ∧
    (∃ r ∈ ([{ start := 0x100000, len := 0x100000, kind := MemoryRegionKind.Usable }] :
        List TestMemoryRegion),
      r.start ≤ 0x150000 ∧ 0x150000 + 0x1000 ≤ r.start + r.len) ∧
    OutCovers (construct_memory_map (LegacyFrameAllocator.new
      [{ start := 0x100000, len := 0x100000, kind := MemoryRegionKind.Usable }])
      0x150000 0x1000 none 0) 0 ∧
    ¬ Covers (usables
      [{ start := 0x100000, len := 0x100000, kind := MemoryRegionKind.Usable }]) 0 := by
  refine ⟨by decide, by decide, by decide, by decide⟩

/-- C3 (amended): for sorted, non-overlapping Usable firmware regions
with a kernel carve-out fully inside one of them and no ramdisk, the
final map is sorted ascending by start and mutually non-overlapping, and
— provided the bootloader null-guard reservation `[0, cursor)` also lies
inside a Usable input region — the union of the emitted regions equals
the union of the Usable input ranges exactly (no gaps, no overlaps). -/
theorem c3_sorted_disjoint_union_amended (regions : List TestMemoryRegion) (f ks kl : Nat)
    (hsorted : regions.Chain' (fun r s => r.start + r.len ≤ s.start))
    (husable : ∀ r ∈ regions, r.kind = MemoryRegionKind.Usable)
    (hkernel : ∃ r ∈ regions, r.kind = MemoryRegionKind.Usable ∧
      r.start ≤ ks ∧ ks + kl ≤ r.start + r.len)
    (hboot : ∃ r ∈ regions, r.kind = MemoryRegionKind.Usable ∧ r.start = 0 ∧
      max f 1 * PAGE_SIZE ≤ r.start + r.len) :
    (construct_memory_map (LegacyFrameAllocator.new_starting_at f regions)
      ks kl none 0).Chain' (fun r s => r.start < s.start) ∧
    (construct_memory_map (LegacyFrameAllocator.new_starting_at f regions)
      ks kl none 0).Pairwise (fun r s => r.endAddr ≤ s.start) ∧
    ∀ x, OutCovers (construct_memory_map (LegacyFrameAllocator.new_starting_at f regions)
      ks kl none 0) x ↔ Covers (usables regions) x := by
  obtain ⟨hord, hwf⟩ :=
    construct_ordered_wf (LegacyFrameAllocator.new_starting_at f regions) ks kl none 0
  refine ⟨ordered_wf_start_lt hord hwf, ordered_wf_pairwise hord hwf, ?_⟩
  intro x
  rw [construct_covers]
  constructor
  · rintro (hc | hu)
    · obtain ⟨p, hp, h1, h2⟩ := hc
      have hnf : (LegacyFrameAllocator.new_starting_at f regions).next_frame = max f 1 := rfl
      rw [hnf] at hp
      have hp2 : p = ((0 : Nat), max f 1 * PAGE_SIZE) ∨ p = (ks, ks + kl) := by
        simpa [carveList] using hp
      rcases hp2 with rfl | rfl
      · obtain ⟨r, hr, hk, hs0, hlen⟩ := hboot
        refine ⟨(r.start, r.start + r.len), mem_usables hr hk, ?_⟩
        simp only at h1 h2 ⊢
        omega
      · obtain ⟨r, hr, hk, hks, hke⟩ := hkernel
        refine ⟨(r.start, r.start + r.len), mem_usables hr hk, ?_⟩
        simp only at h1 h2 ⊢
        omega
    · exact hu
  · intro hu
    exact Or.inr hu

/-- C3 witness: the amended theorem evaluated on the concrete test
scenario — one Usable region `[0, 0x7FFFFF)`, cursor at frame 1, kernel
carve-out `[0x50000, 0x51000)`. -/
theorem c3_sorted_disjoint_union_amended_witness :
    (([{ start := 0, len := 0x7FFFFF, kind := MemoryRegionKind.Usable }] :
        List TestMemoryRegion).Chain' (fun r s => r.start + r.len ≤ s.start) ∧
      (∀ r ∈ ([{ start := 0, len := 0x7FFFFF, kind := MemoryRegionKind.Usable }] :
        List TestMemoryRegion), r.kind = MemoryRegionKind.Usable) ∧
      (∃ r ∈ ([{ start := 0, len := 0x7FFFFF, kind := MemoryRegionKind.Usable }] :
        List TestMemoryRegion), r.kind = MemoryRegionKind.Usable ∧
        r.start ≤ 0x50000 ∧ 0x50000 + 0x1000 ≤ r.start + r.len) ∧
      (∃ r ∈ ([{ start := 0, len := 0x7FFFFF, kind := MemoryRegionKind.Usable }] :
        List TestMemoryRegion), r.kind = MemoryRegionKind.Usable ∧ r.start = 0 ∧
        max 1 1 * PAGE_SIZE ≤ r.start + r.len)) ∧
    ((construct_memory_map (LegacyFrameAllocator.new_starting_at 1
        [{ start := 0, len := 0x7FFFFF, kind := MemoryRegionKind.Usable }])
      0x50000 0x1000 none 0).Chain' (fun r s => r.start < s.start) ∧
    (construct_memory_map (LegacyFrameAllocator.new_starting_at 1
        [{ start := 0, len := 0x7FFFFF, kind := MemoryRegionKind.Usable }])
      0x50000 0x1000 none 0).Pairwise (fun r s => r.endAddr ≤ s.start) ∧
    ∀ x, OutCovers (construct_memory_map (LegacyFrameAllocator.new_starting_at 1
        [{ start := 0, len := 0x7FFFFF, kind := MemoryRegionKind.Usable }])
      0x50000 0x1000 none 0) x ↔
      Covers (usables [{ start := 0, len := 0x7FFFFF, kind := MemoryRegionKind.Usable }]) x) :=
  ⟨⟨by simp, by decide, by decide, by decide⟩,
    c3_sorted_disjoint_union_amended
      [{ start := 0, len := 0x7FFFFF, kind := MemoryRegionKind.Usable }] 1 0x50000 0x1000
      (by simp) (by decide) (by decide) (by decide)⟩

/-- C8: when the highest physical address reported by firmware (the
maximum of start plus length over all map entries) exceeds the fixed
10 GiB high-water mark, the identity-map loop processes every 2 MiB
frame from the frame containing the high-water mark through the frame
containing the highest reported address minus one; on success each such
frame is mapped with virtual address equal to physical address and flags
`PRESENT | WRITABLE`, and a failure of any step in the range is fatal
(the whole loop fails). -/
theorem c8_identity_map_range (mm : List E820MemoryRegion) (m : Nat)
    (hm : maxPhysAddr mm = some m) (hgt : ALREADY_MAPPED < m) :
    (∀ n, ALREADY_MAPPED / TWO_MIB ≤ n → n ≤ (m - 1) / TWO_MIB → n ∈ frameRange m) ∧
    (∀ mapOk L, identityMapAll mapOk m = some L →
      ∀ n, ALREADY_MAPPED / TWO_MIB ≤ n → n ≤ (m - 1) / TWO_MIB →
        ({ virt := n * TWO_MIB, phys := n * TWO_MIB, flags := PRESENT_WRITABLE } :
          MappingEntry) ∈ L) ∧
    (∀ mapOk, (∃ n ∈ frameRange m, mapOk n = false) →
      identityMapAll mapOk m = none) := by
  refine ⟨?_, ?_, ?_⟩
  · intro n h1 h2
    exact (mem_frameRange hgt).mpr ⟨h1, h2⟩
  · intro mapOk L hrun n h1 h2
    unfold identityMapAll at hrun
    exact (identityMapGo_sub hrun).2 n ((mem_frameRange hgt).mpr ⟨h1, h2⟩)
  · rintro mapOk ⟨n, hn, hfail⟩
    unfold identityMapAll
    exact identityMapGo_fail hn hfail

/-- C8 witness: the theorem evaluated on a one-entry firmware map whose
reported maximum (`0x280200001`) is just above the 10 GiB mark. -/
theorem c8_identity_map_range_witness :
    (maxPhysAddr [{ start_addr := 0, len := 0x280200001, region_type := 1 }] =
        some 0x280200001 ∧
      ALREADY_MAPPED < 0x280200001) ∧
    ((∀ n, ALREADY_MAPPED / TWO_MIB ≤ n → n ≤ (0x280200001 - 1) / TWO_MIB →
        n ∈ frameRange 0x280200001) ∧
    (∀ mapOk L, identityMapAll mapOk 0x280200001 = some L →
      ∀ n, ALREADY_MAPPED / TWO_MIB ≤ n → n ≤ (0x280200001 - 1) / TWO_MIB →
        ({ virt := n * TWO_MIB, phys := n * TWO_MIB, flags := PRESENT_WRITABLE } :
          MappingEntry) ∈ L) ∧
    (∀ mapOk, (∃ n ∈ frameRange 0x280200001, mapOk n = false) →
      identityMapAll mapOk 0x280200001 = none)) :=
  ⟨⟨by decide, by decide⟩,
    c8_identity_map_range [{ start_addr := 0, len := 0x280200001, region_type := 1 }]
      0x280200001 (by decide) (by decide)⟩

/-- C10: `_start` constructs the frame allocator with its cursor at the
frame immediately after the last frame occupied by the kernel image, so
every frame returned by any subsequent sequence of `allocate_frame`
calls starts at or above the kernel image's end and never overlaps the
kernel image. -/
theorem c10_alloc_above_kernel (regions : List TestMemoryRegion) (ks sz k : Nat)
    (h : 0 < ks) :
    (stage4Allocator ks sz regions).next_frame = (ks + sz - 1) / PAGE_SIZE + 1 ∧
    ∀ f ∈ allocSeq (stage4Allocator ks sz regions) k, ks + sz ≤ f * PAGE_SIZE := by
  have hnf : (stage4Allocator ks sz regions).next_frame = (ks + sz - 1) / PAGE_SIZE + 1 := by
    show max ((ks + sz - 1) / PAGE_SIZE + 1) 1 = _
    exact Nat.max_eq_left (Nat.le_add_left 1 _)
  refine ⟨hnf, ?_⟩
  intro f hf
  have hlb := allocSeq_lb k _ f hf
  rw [hnf] at hlb
  simp only [PAGE_SIZE] at hlb ⊢
  have hmul : ((ks + sz - 1) / 4096 + 1) * 4096 ≤ f * 4096 :=
    Nat.mul_le_mul_right _ hlb
  omega

/-- C10 witness: the theorem evaluated at the concrete kernel image
`[0x50000, 0x51000)` over a single usable region, for two calls. -/
theorem c10_alloc_above_kernel_witness :
    (0 : Nat) < 0x50000 ∧
    ((stage4Allocator 0x50000 0x1000
        [{ start := 0, len := 0x7FFFFF, kind := MemoryRegionKind.Usable }]).next_frame =
      (0x50000 + 0x1000 - 1) / PAGE_SIZE + 1 ∧
    ∀ f ∈ allocSeq (stage4Allocator 0x50000 0x1000
        [{ start := 0, len := 0x7FFFFF, kind := MemoryRegionKind.Usable }]) 2,
      0x50000 + 0x1000 ≤ f * PAGE_SIZE) :=
  ⟨by decide,
    c10_alloc_above_kernel
      [{ start := 0, len := 0x7FFFFF, kind := MemoryRegionKind.Usable }]
      0x50000 0x1000 2 (by decide)⟩

end Bootloader
